import Mathlib

set_option linter.unusedVariables false

/-!
Verification of the two signal-analysis engines of the audio_video_tools
repository (click/pop removal and RMS silence trimming) against their
natural-language specification.

Samples are modelled as exact rationals.  The Python/NumPy code computes in
floating point, but every property checked here is structural (index
arithmetic, branch order, comparison direction), so idealized exact
arithmetic is the faithful shallow embedding.  Rationals are represented by
the executable fraction type `Q` below (numerator/denominator pairs that are
never normalized, so every operation is a plain integer computation that the
kernel can evaluate); the map `Qval` sends a fraction to the Mathlib
rational it denotes, and value-level theorems are stated through it.
Library calls of the source are embedded by their documented semantics:
* `scipy.signal.medfilt` zero-pads beyond the array boundary;
* `numpy.median` averages the two middle elements for even lengths;
* `scipy.interpolate.interp1d` raises for a cubic request with fewer than 4
  support points and for a linear request with fewer than 2, which the
  embedding returns as `none`;
* IEEE NaN (from `0.0/0.0`) compares false against every bound, which is
  modelled by an explicit positivity guard on the divisor.
-/

/-- Executable exact fractions: `⟨n, d⟩` denotes `n / d`.  Denominators stay
positive along every path of the model (`Qwf`); operations never normalize,
so the kernel can evaluate them as plain integer arithmetic. -/
structure Q where
  num : Int
  den : Int
deriving DecidableEq, Repr

/-- The rational value a fraction denotes (Mathlib division, so a zero
denominator denotes 0). -/
def Qval (a : Q) : ℚ := (a.num : ℚ) / (a.den : ℚ)

/-- Well-formedness: positive denominator. -/
def Qwf (a : Q) : Prop := 0 < a.den

instance (a : Q) : Decidable (Qwf a) := inferInstanceAs (Decidable (0 < a.den))

instance : OfNat Q n := ⟨⟨n, 1⟩⟩

/-- Embed a natural number as a fraction. -/
def Qnat (n : ℕ) : Q := ⟨n, 1⟩

/-- Addition on fractions. -/
def Qadd (a b : Q) : Q := ⟨a.num * b.den + b.num * a.den, a.den * b.den⟩

/-- Subtraction on fractions. -/
def Qsub (a b : Q) : Q := ⟨a.num * b.den - b.num * a.den, a.den * b.den⟩

/-- Multiplication on fractions. -/
def Qmul (a b : Q) : Q := ⟨a.num * b.num, a.den * b.den⟩

/-- Division on fractions; the sign moves to the numerator so that a
well-formed dividend and a divisor with nonzero numerator give a
well-formed result. -/
def Qdiv (a b : Q) : Q :=
  if b.num < 0 then ⟨-(a.num * b.den), a.den * -b.num⟩ else ⟨a.num * b.den, a.den * b.num⟩

/-- Absolute value on fractions (denominators are kept nonnegative). -/
def Qabs (a : Q) : Q := ⟨|a.num|, a.den⟩

instance : Add Q := ⟨Qadd⟩
instance : Sub Q := ⟨Qsub⟩
instance : Mul Q := ⟨Qmul⟩
instance : Div Q := ⟨Qdiv⟩

/-- Order on fractions by cross-multiplication; agrees with the order of
the denoted rationals whenever both denominators are positive. -/
def Qle (a b : Q) : Prop := a.num * b.den ≤ b.num * a.den

/-- Strict order by cross-multiplication. -/
def Qlt (a b : Q) : Prop := a.num * b.den < b.num * a.den

instance : LE Q := ⟨Qle⟩
instance : LT Q := ⟨Qlt⟩

instance (a b : Q) : Decidable (a ≤ b) :=
  inferInstanceAs (Decidable (a.num * b.den ≤ b.num * a.den))

instance (a b : Q) : Decidable (a < b) :=
  inferInstanceAs (Decidable (a.num * b.den < b.num * a.den))

theorem Qval_zero : Qval 0 = 0 := by
  show ((0 : ℤ) : ℚ) / ((1 : ℤ) : ℚ) = 0
  norm_num

theorem Qwf_add {a b : Q} (ha : Qwf a) (hb : Qwf b) : Qwf (a + b) :=
  mul_pos ha hb

theorem Qwf_sub {a b : Q} (ha : Qwf a) (hb : Qwf b) : Qwf (a - b) :=
  mul_pos ha hb

theorem Qwf_mul {a b : Q} (ha : Qwf a) (hb : Qwf b) : Qwf (a * b) :=
  mul_pos ha hb

theorem Qwf_abs {a : Q} (ha : Qwf a) : Qwf (Qabs a) := ha

theorem Qwf_nat (n : ℕ) : Qwf (Qnat n) := one_pos

theorem Qwf_div {a b : Q} (ha : Qwf a) (hb : b.num ≠ 0) : Qwf (a / b) := by
  show Qwf (Qdiv a b)
  unfold Qdiv Qwf
  rcases lt_trichotomy b.num 0 with h | h | h
  · simp only [if_pos h]
    exact mul_pos ha (by omega)
  · exact absurd h hb
  · simp only [if_neg (not_lt.mpr h.le)]
    exact mul_pos ha h

theorem Qval_add {a b : Q} (ha : a.den ≠ 0) (hb : b.den ≠ 0) :
    Qval (a + b) = Qval a + Qval b := by
  show Qval (Qadd a b) = _
  unfold Qval Qadd
  have ha' : (a.den : ℚ) ≠ 0 := Int.cast_ne_zero.mpr ha
  have hb' : (b.den : ℚ) ≠ 0 := Int.cast_ne_zero.mpr hb
  field_simp

theorem Qval_sub {a b : Q} (ha : a.den ≠ 0) (hb : b.den ≠ 0) :
    Qval (a - b) = Qval a - Qval b := by
  show Qval (Qsub a b) = _
  unfold Qval Qsub
  have ha' : (a.den : ℚ) ≠ 0 := Int.cast_ne_zero.mpr ha
  have hb' : (b.den : ℚ) ≠ 0 := Int.cast_ne_zero.mpr hb
  field_simp
  ring

theorem Qval_mul (a b : Q) : Qval (a * b) = Qval a * Qval b := by
  show Qval (Qmul a b) = _
  unfold Qval Qmul
  push_cast
  rw [div_mul_div_comm]

theorem Qval_abs {a : Q} (ha : 0 ≤ a.den) : Qval (Qabs a) = |Qval a| := by
  show ((|a.num| : ℤ) : ℚ) / ((a.den : ℤ) : ℚ) = |(a.num : ℚ) / (a.den : ℚ)|
  rw [abs_div, abs_of_nonneg (show (0 : ℚ) ≤ ((a.den : ℤ) : ℚ) from by exact_mod_cast ha),
    Int.cast_abs]

theorem Qval_div (a b : Q) : Qval (a / b) = Qval a / Qval b := by
  show Qval (Qdiv a b) = _
  unfold Qval Qdiv
  have key : ∀ x y z w : ℚ, x / y / (z / w) = x * w / (y * z) := by
    intro x y z w
    rw [div_div_eq_mul_div, div_mul_eq_mul_div, div_div]
  split
  · push_cast
    rw [mul_neg, neg_div_neg_eq, key]
  · push_cast
    rw [key]

theorem Qle_iff {a b : Q} (ha : Qwf a) (hb : Qwf b) : a ≤ b ↔ Qval a ≤ Qval b := by
  show Qle a b ↔ _
  unfold Qle Qval
  rw [div_le_div_iff₀ (by exact_mod_cast ha) (by exact_mod_cast hb)]
  constructor
  · intro h; exact_mod_cast h
  · intro h; exact_mod_cast h

theorem Qlt_iff {a b : Q} (ha : Qwf a) (hb : Qwf b) : a < b ↔ Qval a < Qval b := by
  show Qlt a b ↔ _
  unfold Qlt Qval
  rw [div_lt_div_iff₀ (by exact_mod_cast ha) (by exact_mod_cast hb)]
  constructor
  · intro h; exact_mod_cast h
  · intro h; exact_mod_cast h

namespace Click

/-- Insert a fraction into a sorted list, keeping it sorted. -/
def insertSorted (x : Q) : List Q → List Q
  | [] => [x]
  | y :: ys => if x ≤ y then x :: y :: ys else y :: insertSorted x ys

/-- Insertion sort of a list of fractions. -/
def sortQ : List Q → List Q
  | [] => []
  | x :: xs => insertSorted x (sortQ xs)

/-- Semantics of `numpy.median`: middle element of the sorted list for odd
length, mean of the two middle elements for even length.  The empty case
(NaN in NumPy) is mapped to 0; the detector never feeds it a list whose
median is read back, except on the empty signal where the result is empty
anyway. -/
def np_median (l : List Q) : Q :=
  let s := sortQ l
  let n := l.length
  if n % 2 = 1 then s.getD (n / 2) 0
  else if n = 0 then 0
  else (s.getD (n / 2 - 1) 0 + s.getD (n / 2) 0) / ⟨2, 1⟩

/-- Element of `audio` at signed index `j`, taking the value 0 beyond the
boundaries.  This is the zero-padding `scipy.signal.medfilt` applies. -/
def paddedGet (audio : List Q) (j : Int) : Q :=
  if 0 ≤ j ∧ j < audio.length then audio.getD j.toNat 0 else 0

/-- Embedding of `scipy.signal.medfilt(audio, kernel_size=w)`: sliding
median of width `w` centred at each index, with zeros assumed beyond the
boundaries (SciPy documentation: the array is automatically zero-padded).
SciPy requires `w` odd; theorems about the detector carry that
hypothesis. -/
def medfilt (audio : List Q) (w : ℕ) : List Q :=
  (List.range audio.length).map (fun (i : ℕ) =>
    np_median ((List.range w).map (fun (k : ℕ) =>
      paddedGet audio ((i : Int) + (k : Int) - ((w / 2 : ℕ) : Int)))))

/-- The deviation `difference[i] = |audio[i] - filtered[i]|` computed by
`detect_clicks`. -/
def difference (audio : List Q) (w : ℕ) : List Q :=
  List.zipWith (fun a f => Qabs (a - f)) audio (medfilt audio w)

/-- Median absolute deviation of a list, exactly as `detect_clicks`
computes it: `median(|d - median(d)|)`. -/
def mad (d : List Q) : Q :=
  np_median (d.map (fun x => Qabs (x - np_median d)))

/-- The constant 1.4826 of the source (`mad * 1.4826` rescales MAD to a
standard deviation under a normality assumption). -/
def madScale : Q := ⟨14826, 10000⟩

/-- The detection threshold of `detect_clicks`:
`median_diff + threshold * mad * 1.4826`. -/
def threshold_value (audio : List Q) (w : ℕ) (threshold : Q) : Q :=
  np_median (difference audio w) + threshold * mad (difference audio w) * madScale

/-- The boolean outlier mask: `difference > threshold_value`, a strict
comparison. -/
def outliers (audio : List Q) (w : ℕ) (threshold : Q) : List Bool :=
  (difference audio w).map (fun d => decide (threshold_value audio w threshold < d))

/-- One step of the imperative scan of `detect_clicks` grouping consecutive
outliers.  State: `(in_click, click_start, clicks so far)`; input: the
current index with its mask bit.  The three branches are the source's
`if / elif / elif` in order. -/
def clickStep (maxLength : ℕ) (st : Bool × ℕ × List (ℕ × ℕ)) (p : ℕ × Bool) :
    Bool × ℕ × List (ℕ × ℕ) :=
  let inClick := st.1
  let clickStart := st.2.1
  let acc := st.2.2
  let i := p.1
  let o := p.2
  if o && !inClick then (true, i, acc)
  else if !o && inClick then
    (false, clickStart, if i - clickStart ≤ maxLength then acc ++ [(clickStart, i)] else acc)
  else if inClick && decide (maxLength < i - clickStart) then (false, clickStart, acc)
  else st

/-- The full scan over the outlier mask, including the trailing
`if in_click:` block of the source that closes a run still open at the end
of the buffer. -/
def clickScan (outs : List Bool) (maxLength : ℕ) : List (ℕ × ℕ) :=
  let st := outs.enum.foldl (clickStep maxLength) (false, 0, [])
  if st.1 && decide (outs.length - st.2.1 ≤ maxLength) then
    st.2.2 ++ [(st.2.1, outs.length)]
  else st.2.2

/-- Embedding of `AudioClickPopRemover.detect_clicks`.  The `sampleRate`
argument is part of the source signature; the body never reads it. -/
def detect_clicks (audio : List Q) (sampleRate : ℕ) (windowSize : ℕ)
    (threshold : Q) (maxLength : ℕ) : List (ℕ × ℕ) :=
  clickScan (outliers audio windowSize threshold) maxLength

end Click

section ClickChecks

example : Click.np_median [⟨3, 1⟩, ⟨1, 1⟩, ⟨2, 1⟩] = ⟨2, 1⟩ := by decide
example : Click.np_median [⟨4, 1⟩, ⟨1, 1⟩, ⟨2, 1⟩, ⟨3, 1⟩] = ⟨5, 2⟩ := by decide
example : Click.medfilt [⟨1, 1⟩, ⟨2, 1⟩, ⟨3, 1⟩] 3 = [⟨1, 1⟩, ⟨2, 1⟩, ⟨2, 1⟩] := by decide

/-- Concrete input for the C1 counterexample: five alternating-sign spike
samples produce an outlier run of length 5. -/
def ex1 : List Q :=
  [⟨0, 1⟩, ⟨0, 1⟩, ⟨0, 1⟩, ⟨100, 1⟩, ⟨-100, 1⟩, ⟨100, 1⟩, ⟨-100, 1⟩, ⟨100, 1⟩, ⟨0, 1⟩, ⟨0, 1⟩, ⟨0, 1⟩]

example : Click.outliers ex1 3 ⟨4, 1⟩ =
    [false, false, false, true, true, true, true, true, false, false, false] := by decide
example : Click.detect_clicks ex1 44100 3 ⟨4, 1⟩ 2 = [(7, 8)] := by decide

end ClickChecks

section ClickLemmas

/-- Regions accumulated by the scan up to position `k` are nonempty,
end at or before `k`, and are no longer than `m`; an open click started
strictly before `k`. -/
def RegionsOk (k m : ℕ) (st : Bool × ℕ × List (ℕ × ℕ)) : Prop :=
  (∀ r ∈ st.2.2, r.1 < r.2 ∧ r.2 ≤ k ∧ r.2 - r.1 ≤ m)
    ∧ (st.1 = true → st.2.1 < k)

theorem clickStep_inv (m k : ℕ) (st : Bool × ℕ × List (ℕ × ℕ)) (p : Bool)
    (h : RegionsOk k m st) : RegionsOk (k + 1) m (Click.clickStep m st (k, p)) := by
  obtain ⟨hreg, hin⟩ := h
  have hmono : ∀ r ∈ st.2.2, r.1 < r.2 ∧ r.2 ≤ k + 1 ∧ r.2 - r.1 ≤ m :=
    fun r hr => ⟨(hreg r hr).1, Nat.le_succ_of_le (hreg r hr).2.1, (hreg r hr).2.2⟩
  unfold Click.clickStep
  dsimp only
  split_ifs with h1 h2 h3 h4
  · exact ⟨hmono, fun _ => Nat.lt_succ_self k⟩
  · refine ⟨?_, by simp⟩
    intro r hr
    rcases List.mem_append.mp hr with hmem | hmem
    · exact hmono r hmem
    · rcases List.mem_singleton.mp hmem with rfl
      have hstart : st.2.1 < k := hin (Bool.and_elim_right h2)
      exact ⟨hstart, Nat.le_succ k, h3⟩
  · exact ⟨hmono, by simp⟩
  · exact ⟨hmono, by simp⟩
  · refine ⟨hmono, fun hcl => Nat.lt_succ_of_lt (hin hcl)⟩

theorem clickScan_fold (m : ℕ) (l : List Bool) :
    ∀ (k : ℕ) (st : Bool × ℕ × List (ℕ × ℕ)), RegionsOk k m st →
      RegionsOk (k + l.length) m ((l.enumFrom k).foldl (Click.clickStep m) st) := by
  induction l with
  | nil => intro k st h; simpa using h
  | cons b t ih =>
    intro k st h
    have step := clickStep_inv m k st b h
    have htail := ih (k + 1) (Click.clickStep m st (k, b)) step
    have hcons : (b :: t).enumFrom k = (k, b) :: t.enumFrom (k + 1) := rfl
    rw [hcons, List.foldl_cons, List.length_cons]
    have harith : k + (t.length + 1) = k + 1 + t.length := by omega
    rw [harith]
    exact htail

/-- Every region returned by `detect_clicks` is a nonempty interval inside
the buffer whose length is at most `max_click_length`. -/
theorem detect_clicks_spec (audio : List Q) (sr w : ℕ) (t : Q) (m : ℕ) :
    ∀ r ∈ Click.detect_clicks audio sr w t m,
      r.1 < r.2 ∧ r.2 ≤ audio.length ∧ r.2 - r.1 ≤ m := by
  intro r hr
  unfold Click.detect_clicks Click.clickScan at hr
  set outs := Click.outliers audio w t with houts
  have hlen : outs.length = audio.length := by
    rw [houts]
    simp only [Click.outliers, Click.difference, Click.medfilt, List.length_map,
      List.length_zipWith, List.length_range, min_self]
  have hbase : RegionsOk 0 m ((false : Bool), (0 : ℕ), ([] : List (ℕ × ℕ))) := by
    constructor
    · intro r hr; simp at hr
    · intro h; simp at h
  have hfold := clickScan_fold m outs 0 (false, 0, []) hbase
  rw [Nat.zero_add] at hfold
  have henum : outs.enum = outs.enumFrom 0 := rfl
  rw [henum] at hr
  set st := (outs.enumFrom 0).foldl (Click.clickStep m) (false, 0, []) with hst
  dsimp only at hr
  split_ifs at hr with hcond
  · rcases List.mem_append.mp hr with hmem | hmem
    · have := hfold.1 r hmem
      rw [hlen] at this
      exact this
    · rcases List.mem_singleton.mp hmem with rfl
      have hopen : st.1 = true := Bool.and_elim_left hcond
      have hshort : outs.length - st.2.1 ≤ m := of_decide_eq_true (Bool.and_elim_right hcond)
      have hstart : st.2.1 < outs.length := hfold.2 hopen
      exact ⟨hstart, hlen.le, hshort⟩
  · have := hfold.1 r hr
    rw [hlen] at this
    exact this

end ClickLemmas

/-- Claim C1: FALSE as stated.  On `ex1` with `window_size = 3`,
`threshold_multiplier = 4`, `max_click_length = 2`, the outlier mask has a
single maximal run `[3, 8)` of length `5 > 2`, yet `detect_clicks`
returns the region `(7, 8)`, which overlaps samples of that run: the scan
drops `in_click` once the run exceeds the limit but re-enters at the very
next outlier, so a tail segment of a long run can be accepted. -/
theorem C1_counterexample :
    Click.outliers ex1 3 ⟨4, 1⟩ =
        [false, false, false, true, true, true, true, true, false, false, false]
      ∧ Click.detect_clicks ex1 44100 3 ⟨4, 1⟩ 2 = [(7, 8)]
      ∧ 2 < 8 - 3 ∧ 3 ≤ 7 ∧ 8 ≤ 8 := by
  exact ⟨by decide, by decide, by decide, by decide, by decide⟩

/-- Claim C1 (amended): a maximal run of consecutive outliers longer than
`max_click_length` is never returned whole — every region returned by
`detect_clicks` has length at most `max_click_length` — but a tail segment
of such a run may still be returned as a region. -/
theorem C1_amended (audio : List Q) (sr w : ℕ) (t : Q) (m : ℕ) (r : ℕ × ℕ)
    (hr : r ∈ Click.detect_clicks audio sr w t m) : r.2 - r.1 ≤ m :=
  (detect_clicks_spec audio sr w t m r hr).2.2

/-- Witness for C1 (amended) at the concrete run of `ex1`. -/
theorem C1_amended_witness : (8 : ℕ) - 7 ≤ 2 :=
  C1_amended ex1 44100 3 ⟨4, 1⟩ 2 (7, 8) (by decide)

/-- Claim C10: the region list of `detect_clicks` is a function of the
samples and the detection parameters alone; the `sample_rate` argument has
no influence on the result. -/
theorem C10_sample_rate_irrelevant (audio : List Q) (sr1 sr2 w : ℕ) (t : Q) (m : ℕ) :
    Click.detect_clicks audio sr1 w t m = Click.detect_clicks audio sr2 w t m := rfl

/-- Modelled from the spec's words for claim C4 only: a sliding median
whose window shrinks at the boundaries to the samples actually available,
instead of zero-padding.  This definition exists to be compared against
`Click.medfilt`, the embedding of what the source computes. -/
def medfiltShrinkSpec (audio : List Q) (w : ℕ) : List Q :=
  (List.range audio.length).map (fun (i : ℕ) =>
    Click.np_median ((audio.drop (i - w / 2)).take (min (i + w / 2 + 1) audio.length - (i - w / 2))))

/-- Concrete three-sample signal separating zero-padding from
window-shrinking edge handling. -/
def exShort : List Q := [⟨1, 1⟩, ⟨2, 1⟩, ⟨3, 1⟩]

/-- Claim C4: FALSE as stated.  The baseline of `detect_clicks` is
`scipy.signal.medfilt`, which zero-pads beyond the buffer boundary; it does
not shrink the effective window.  On `[1, 2, 3]` with `window_size = 3` the
code's baseline starts with `median(0, 1, 2) = 1` while the shrinking
median of the spec starts with `median(1, 2) = 3/2`. -/
theorem C4_counterexample :
    Click.medfilt exShort 3 = [⟨1, 1⟩, ⟨2, 1⟩, ⟨2, 1⟩]
      ∧ medfiltShrinkSpec exShort 3 = [⟨3, 2⟩, ⟨2, 1⟩, ⟨5, 2⟩]
      ∧ Qval ⟨1, 1⟩ ≠ Qval ⟨3, 2⟩ := by
  refine ⟨by decide, by decide, ?_⟩
  show ((1 : ℤ) : ℚ) / ((1 : ℤ) : ℚ) ≠ ((3 : ℤ) : ℚ) / ((2 : ℤ) : ℚ)
  norm_num

/-- Claim C4 (amended): the baseline is a sliding median with zero-padded
edge handling, and on a signal shorter than `window_size` the detector
still returns a valid (possibly empty) region list — every returned region
is a nonempty in-bounds interval — rather than failing. -/
theorem C4_amended (audio : List Q) (sr w : ℕ) (t : Q) (m : ℕ)
    (hshort : audio.length < w) (r : ℕ × ℕ)
    (hr : r ∈ Click.detect_clicks audio sr w t m) :
    r.1 < r.2 ∧ r.2 ≤ audio.length :=
  ⟨(detect_clicks_spec audio sr w t m r hr).1,
   (detect_clicks_spec audio sr w t m r hr).2.1⟩

/-- Five-sample signal, shorter than the window width 9, on which the
detector still finds one region. -/
def ex4 : List Q := [⟨0, 1⟩, ⟨0, 1⟩, ⟨9, 1⟩, ⟨0, 1⟩, ⟨0, 1⟩]

/-- Witness for C4 (amended): on the 5-sample signal with window 9 the
detector returns the in-bounds region `(2, 3)`. -/
theorem C4_amended_witness : ex4.length < 9 ∧ (2 : ℕ) < 3 ∧ (3 : ℕ) ≤ ex4.length :=
  ⟨by decide, C4_amended ex4 44100 9 ⟨1, 1⟩ 2 (by decide) (2, 3) (by decide)⟩

section WfLemmas

theorem Qwf_zero : Qwf (0 : Q) := Int.one_pos

theorem getD_mem_or (l : List Q) (i : ℕ) (d : Q) : l.getD i d ∈ l ∨ l.getD i d = d := by
  induction l generalizing i with
  | nil => right; rfl
  | cons x xs ih =>
    cases i with
    | zero => left; exact List.mem_cons_self x xs
    | succ j =>
      rw [List.getD_cons_succ]
      rcases ih j with h | h
      · left; exact List.mem_cons_of_mem x h
      · right; exact h

theorem mem_insertSorted {x y : Q} {l : List Q} (h : y ∈ Click.insertSorted x l) :
    y = x ∨ y ∈ l := by
  induction l with
  | nil => simpa [Click.insertSorted] using h
  | cons a t ih =>
    unfold Click.insertSorted at h
    split_ifs at h
    · rcases List.mem_cons.mp h with h1 | h1
      · left; exact h1
      · right; exact h1
    · rcases List.mem_cons.mp h with h1 | h1
      · right; rw [h1]; exact List.mem_cons_self a t
      · rcases ih h1 with h2 | h2
        · left; exact h2
        · right; exact List.mem_cons_of_mem a h2

theorem mem_sortQ {y : Q} : ∀ {l : List Q}, y ∈ Click.sortQ l → y ∈ l := by
  intro l
  induction l with
  | nil => intro h; simp [Click.sortQ] at h
  | cons a t ih =>
    intro h
    rcases mem_insertSorted h with h1 | h1
    · rw [h1]; exact List.mem_cons_self a t
    · exact List.mem_cons_of_mem a (ih h1)

theorem Qwf_np_median {l : List Q} (h : ∀ x ∈ l, Qwf x) : Qwf (Click.np_median l) := by
  unfold Click.np_median
  dsimp only
  split_ifs with h1 h2
  · rcases getD_mem_or (Click.sortQ l) (l.length / 2) 0 with hm | hd
    · exact h _ (mem_sortQ hm)
    · rw [hd]; exact Qwf_zero
  · exact Qwf_zero
  · have w1 : Qwf ((Click.sortQ l).getD (l.length / 2 - 1) 0) := by
      rcases getD_mem_or (Click.sortQ l) (l.length / 2 - 1) 0 with hm | hd
      · exact h _ (mem_sortQ hm)
      · rw [hd]; exact Qwf_zero
    have w2 : Qwf ((Click.sortQ l).getD (l.length / 2) 0) := by
      rcases getD_mem_or (Click.sortQ l) (l.length / 2) 0 with hm | hd
      · exact h _ (mem_sortQ hm)
      · rw [hd]; exact Qwf_zero
    exact Qwf_div (Qwf_add w1 w2) (by decide)

theorem Qwf_paddedGet {audio : List Q} (h : ∀ x ∈ audio, Qwf x) (j : Int) :
    Qwf (Click.paddedGet audio j) := by
  unfold Click.paddedGet
  split_ifs with h1
  · rcases getD_mem_or audio j.toNat 0 with hm | hd
    · exact h _ hm
    · rw [hd]; exact Qwf_zero
  · exact Qwf_zero

theorem Qwf_medfilt_mem {audio : List Q} {w : ℕ} (h : ∀ x ∈ audio, Qwf x) :
    ∀ y ∈ Click.medfilt audio w, Qwf y := by
  intro y hy
  unfold Click.medfilt at hy
  obtain ⟨i, hi, rfl⟩ := List.mem_map.mp hy
  refine Qwf_np_median ?_
  intro x hx
  obtain ⟨k, hk, rfl⟩ := List.mem_map.mp hx
  exact Qwf_paddedGet h _

theorem mem_zipWith_cases {f : Q → Q → Q} :
    ∀ {as bs : List Q} {y}, y ∈ List.zipWith f as bs →
      ∃ a b, a ∈ as ∧ b ∈ bs ∧ y = f a b := by
  intro as
  induction as with
  | nil => intro bs y h; simp at h
  | cons a t ih =>
    intro bs y h
    cases bs with
    | nil => simp at h
    | cons b bt =>
      rw [List.zipWith_cons_cons] at h
      rcases List.mem_cons.mp h with h1 | h1
      · exact ⟨a, b, List.mem_cons_self a t, List.mem_cons_self b bt, h1⟩
      · obtain ⟨p, q, hp, hq, rfl⟩ := ih h1
        exact ⟨p, q, List.mem_cons_of_mem a hp, List.mem_cons_of_mem b hq, rfl⟩

theorem Qwf_difference_mem {audio : List Q} {w : ℕ} (h : ∀ x ∈ audio, Qwf x) :
    ∀ y ∈ Click.difference audio w, Qwf y := by
  intro y hy
  unfold Click.difference at hy
  obtain ⟨a, b, ha, hb, rfl⟩ := mem_zipWith_cases hy
  exact Qwf_abs (Qwf_sub (h a ha) (Qwf_medfilt_mem h b hb))

theorem Qwf_mad {d : List Q} (h : ∀ x ∈ d, Qwf x) : Qwf (Click.mad d) := by
  unfold Click.mad
  refine Qwf_np_median ?_
  intro x hx
  obtain ⟨a, ha, rfl⟩ := List.mem_map.mp hx
  exact Qwf_abs (Qwf_sub (h a ha) (Qwf_np_median h))

theorem Qwf_madScale : Qwf Click.madScale := by
  show (0 : ℤ) < 10000
  norm_num

theorem Qwf_threshold_value {audio : List Q} {w : ℕ} {t : Q}
    (h : ∀ x ∈ audio, Qwf x) (ht : Qwf t) : Qwf (Click.threshold_value audio w t) :=
  Qwf_add (Qwf_np_median (Qwf_difference_mem h))
    (Qwf_mul (Qwf_mul ht (Qwf_mad (Qwf_difference_mem h))) Qwf_madScale)

theorem zipWith_getD {f : Q → Q → Q} :
    ∀ (as bs : List Q) (i : ℕ), i < as.length → i < bs.length →
      (List.zipWith f as bs).getD i 0 = f (as.getD i 0) (bs.getD i 0) := by
  intro as
  induction as with
  | nil => intro bs i h1 h2; simp at h1
  | cons a t ih =>
    intro bs i h1 h2
    cases bs with
    | nil => simp at h2
    | cons b bt =>
      cases i with
      | zero => rfl
      | succ j =>
        rw [List.zipWith_cons_cons, List.getD_cons_succ, List.getD_cons_succ,
          List.getD_cons_succ]
        exact ih bt j (Nat.lt_of_succ_lt_succ h1) (Nat.lt_of_succ_lt_succ h2)

theorem map_getD_decide {g : Q → Bool} :
    ∀ (l : List Q) (i : ℕ), i < l.length → (l.map g).getD i false = g (l.getD i 0) := by
  intro l
  induction l with
  | nil => intro i h; simp at h
  | cons a t ih =>
    intro i h
    cases i with
    | zero => rfl
    | succ j =>
      rw [List.map_cons, List.getD_cons_succ, List.getD_cons_succ]
      exact ih j (Nat.lt_of_succ_lt_succ h)

end WfLemmas

/-- Claim C5: the detector computes the outlier threshold exactly as
`median(difference) + threshold_multiplier * MAD(difference) * 1.4826`,
with `difference[i] = |signal[i] - baseline[i]|`, and marks sample `i` as
an outlier if and only if `difference[i] > threshold_value`, a strict
comparison with no hysteresis. -/
theorem C5_threshold_formula (audio : List Q) (w : ℕ) (t : Q) (i : ℕ)
    (hw : ∀ x ∈ audio, Qwf x) (ht : Qwf t)
    (hi : i < (Click.difference audio w).length) :
    ((Click.outliers audio w t).getD i false = true ↔
        Qval (Click.threshold_value audio w t) < Qval ((Click.difference audio w).getD i 0))
  ∧ Qval (Click.threshold_value audio w t) =
      Qval (Click.np_median (Click.difference audio w))
        + Qval t * Qval (Click.mad (Click.difference audio w)) * (14826 / 10000 : ℚ)
  ∧ Qval ((Click.difference audio w).getD i 0) =
      |Qval (audio.getD i 0) - Qval ((Click.medfilt audio w).getD i 0)| := by
  have hdmem := Qwf_difference_mem (w := w) hw
  have hdwf : Qwf ((Click.difference audio w).getD i 0) := by
    rcases getD_mem_or (Click.difference audio w) i 0 with hm | hd
    · exact hdmem _ hm
    · rw [hd]; exact Qwf_zero
  have hthr : Qwf (Click.threshold_value audio w t) := Qwf_threshold_value hw ht
  have hawf : Qwf (audio.getD i 0) := by
    rcases getD_mem_or audio i 0 with hm | hd
    · exact hw _ hm
    · rw [hd]; exact Qwf_zero
  have hfwf : Qwf ((Click.medfilt audio w).getD i 0) := by
    rcases getD_mem_or (Click.medfilt audio w) i 0 with hm | hd
    · exact Qwf_medfilt_mem hw _ hm
    · rw [hd]; exact Qwf_zero
  refine ⟨?_, ?_, ?_⟩
  · have h1 : (Click.outliers audio w t).getD i false
        = decide (Click.threshold_value audio w t < (Click.difference audio w).getD i 0) :=
      map_getD_decide (Click.difference audio w) i hi
    rw [h1]
    constructor
    · intro h
      exact (Qlt_iff hthr hdwf).mp (of_decide_eq_true h)
    · intro h
      exact decide_eq_true ((Qlt_iff hthr hdwf).mpr h)
  · have hmadsc : Qval Click.madScale = (14826 / 10000 : ℚ) := by
      show ((14826 : ℤ) : ℚ) / ((10000 : ℤ) : ℚ) = 14826 / 10000
      norm_num
    have hm := Qwf_np_median hdmem
    have hmad := Qwf_mad hdmem
    show Qval (Click.np_median (Click.difference audio w)
        + t * Click.mad (Click.difference audio w) * Click.madScale) = _
    rw [Qval_add hm.ne' (Qwf_mul (Qwf_mul ht hmad) Qwf_madScale).ne',
      Qval_mul, Qval_mul, hmadsc]
  · have hmlen : (Click.medfilt audio w).length = audio.length := by
      simp only [Click.medfilt, List.length_map, List.length_range]
    have hdlen : (Click.difference audio w).length
        = min audio.length (Click.medfilt audio w).length := by
      simp only [Click.difference, List.length_zipWith]
    have hia : i < audio.length := by
      rw [hdlen, hmlen, min_self] at hi
      exact hi
    have hif : i < (Click.medfilt audio w).length := by
      rw [hmlen]
      exact hia
    show Qval ((List.zipWith (fun a f => Qabs (a - f)) audio (Click.medfilt audio w)).getD i 0) = _
    rw [zipWith_getD audio (Click.medfilt audio w) i hia hif,
      Qval_abs (Qwf_sub hawf hfwf).le, Qval_sub hawf.ne' hfwf.ne']

/-- Witness for C5 at `ex1`, window 3, multiplier 4, index 3 (an outlier
position of the counterexample signal). -/
theorem C5_witness :
    ((Click.outliers ex1 3 ⟨4, 1⟩).getD 3 false = true ↔
        Qval (Click.threshold_value ex1 3 ⟨4, 1⟩) < Qval ((Click.difference ex1 3).getD 3 0))
  ∧ Qval (Click.threshold_value ex1 3 ⟨4, 1⟩) =
      Qval (Click.np_median (Click.difference ex1 3))
        + Qval ⟨4, 1⟩ * Qval (Click.mad (Click.difference ex1 3)) * (14826 / 10000 : ℚ)
  ∧ Qval ((Click.difference ex1 3).getD 3 0) =
      |Qval (ex1.getD 3 0) - Qval ((Click.medfilt ex1 3).getD 3 0)| :=
  C5_threshold_formula ex1 3 ⟨4, 1⟩ 3 (by decide) (by decide) (by decide)

instance : Neg Q := ⟨fun a => ⟨-a.num, a.den⟩⟩

namespace Click

/-- Sum of a list of fractions. -/
def sumQ (l : List Q) : Q := l.foldl (· + ·) 0

/-- Python `range(a, b)` as a list of naturals. -/
def pyRangeNat (a b : ℕ) : List ℕ := (List.range (b - a)).map (fun (k : ℕ) => a + k)

/-- Support abscissae of `interpolate_clicks` for region `[s, e)` in a
buffer of length `n`: `range(max(0, s-5), s) ++ range(e, min(n, e+5))`
(context radius 5 on each side, clipped to the buffer). -/
def supportXs (n s e : ℕ) : List ℕ :=
  pyRangeNat (s - 5) s ++ pyRangeNat e (min n (e + 5))

/-- Support ordinates: the samples of the original buffer at the support
abscissae (Python slices clamp at the buffer end, so these lists can be
shorter than `supportXs` for out-of-range regions, in which case the fits
fail just as `interp1d` raises on mismatched lengths). -/
def supportYs (audio : List Q) (s e : ℕ) : List Q :=
  ((audio.drop (s - 5)).take (s - (s - 5)))
    ++ ((audio.drop e).take (min audio.length (e + 5) - e))

/-- First row with a (semantically) nonzero leading entry, and the other
rows. -/
def findPivot : List (List Q) → Option (List Q × List (List Q))
  | [] => none
  | r :: rs =>
    if (r.headD 0).num ≠ 0 then some (r, rs)
    else
      match findPivot rs with
      | some (p, rest) => some (p, r :: rest)
      | none => none

/-- Eliminate the leading column of row `r` using the pivot row `p`. -/
def elimRow (p r : List Q) : List Q :=
  (List.zipWith (fun x y => x - (r.headD 0 / p.headD 0) * y) r p).tail

/-- Gaussian elimination for an augmented `k × (k+1)` system over the
fractions; `none` when the system is singular (the `LinAlgError` branch of
a failed fit). -/
def gaussSolve : ℕ → List (List Q) → Option (List Q)
  | 0, _ => some []
  | k + 1, rows =>
    match findPivot rows with
    | none => none
    | some (p, rest) =>
      match gaussSolve k (rest.map (elimRow p)) with
      | none => none
      | some solTail =>
        let tl := p.tail
        let rhs := tl.getD k 0
        let x0 := (rhs - sumQ (List.zipWith (fun a x => a * x) (tl.take k) solTail))
            / p.headD 0
        some (x0 :: solTail)

/-- Knot gap `h i = x (i+1) - x i`. -/
def hgap (xq : List Q) (i : ℕ) : Q := xq.getD (i + 1) 0 - xq.getD i 0

/-- One row of the spline system: `n` coefficients then the right-hand
side. -/
def splineRow (n : ℕ) (coeff : ℕ → Q) (rhs : Q) : List Q :=
  (List.range n).map coeff ++ [rhs]

/-- The not-a-knot cubic-spline moment system for knots `xq` and values
`yq` (the interpolant `scipy.interpolate.interp1d(kind='cubic')`
computes): continuity of the second derivative at the interior knots and
third-derivative continuity at the first and last interior knot. -/
def splineRows (xq yq : List Q) : List (List Q) :=
  let n := xq.length
  let h := hgap xq
  [splineRow n (fun j => if j = 0 then -(h 1) else if j = 1 then h 0 + h 1
      else if j = 2 then -(h 0) else 0) 0]
  ++ (List.range (n - 2)).map (fun (kk : ℕ) =>
      let i := kk + 1
      splineRow n (fun j => if j = i - 1 then h (i - 1)
          else if j = i then ⟨2, 1⟩ * (h (i - 1) + h i)
          else if j = i + 1 then h i else 0)
        (⟨6, 1⟩ * ((yq.getD (i + 1) 0 - yq.getD i 0) / h i
          - (yq.getD i 0 - yq.getD (i - 1) 0) / h (i - 1))))
  ++ [splineRow n (fun j => if j = n - 3 then -(h (n - 2))
      else if j = n - 2 then h (n - 3) + h (n - 2)
      else if j = n - 1 then -(h (n - 3)) else 0) 0]

/-- Index of the spline/linear segment containing `t` (clamped to the end
segments, which realizes `fill_value='extrapolate'`). -/
def segIdx (xq : List Q) (t : Q) : ℕ :=
  min (xq.length - 2) ((xq.filter (fun x => decide (x ≤ t))).length - 1)

/-- Evaluate the cubic spline with moments `Ms` at `t`. -/
def splineEval (xq yq Ms : List Q) (t : Q) : Q :=
  let i := segIdx xq t
  let xi := xq.getD i 0
  let xi1 := xq.getD (i + 1) 0
  let hi := xi1 - xi
  let Mi := Ms.getD i 0
  let Mi1 := Ms.getD (i + 1) 0
  let yi := yq.getD i 0
  let yi1 := yq.getD (i + 1) 0
  Mi * ((xi1 - t) * (xi1 - t) * (xi1 - t)) / (⟨6, 1⟩ * hi)
    + Mi1 * ((t - xi) * (t - xi) * (t - xi)) / (⟨6, 1⟩ * hi)
    + (yi - Mi * (hi * hi) / ⟨6, 1⟩) * (xi1 - t) / hi
    + (yi1 - Mi1 * (hi * hi) / ⟨6, 1⟩) * (t - xi) / hi

/-- Strictly increasing list of naturals. -/
def strictIncr : List ℕ → Bool
  | [] => true
  | [_] => true
  | a :: b :: r => decide (a < b) && strictIncr (b :: r)

/-- Embedding of `interp1d(x_points, y_points, kind='cubic',
fill_value='extrapolate')` evaluated at the integer points `ts`.  `none`
models the exception of the source's `try` block: `interp1d` raises when
the point counts differ, when fewer than 4 points are given for a cubic
spline, or when the abscissae are not strictly increasing after
deduplication; a singular moment system is also a failure. -/
def cubicFitValues (xs : List ℕ) (ys : List Q) (ts : List ℕ) : Option (List Q) :=
  if xs.length ≠ ys.length ∨ xs.length < 4 ∨ strictIncr xs = false then none
  else
    let xq := xs.map Qnat
    match gaussSolve xs.length (splineRows xq ys) with
    | none => none
    | some Ms => some (ts.map (fun t => splineEval xq ys Ms (Qnat t)))

/-- Evaluate the piecewise-linear interpolant at `t`, extrapolating with
the first/last segment. -/
def linEval (xq yq : List Q) (t : Q) : Q :=
  let i := segIdx xq t
  let xi := xq.getD i 0
  let xi1 := xq.getD (i + 1) 0
  let yi := yq.getD i 0
  let yi1 := yq.getD (i + 1) 0
  yi + (yi1 - yi) * (t - xi) / (xi1 - xi)

/-- Embedding of `interp1d(x_points, y_points, kind='linear',
fill_value='extrapolate')` evaluated at the integer points `ts`; `none`
when fewer than 2 points are given or the point counts differ. -/
def linearFitValues (xs : List ℕ) (ys : List Q) (ts : List ℕ) : Option (List Q) :=
  if xs.length ≠ ys.length ∨ xs.length < 2 then none
  else some (ts.map (fun t => linEval (xs.map Qnat) ys (Qnat t)))

/-- NumPy broadcast check for `corrected[s:e] = vals`: the assignment
succeeds when the clipped target slice has exactly the length of the
source, or the source has length one. -/
def sliceAssignOk (n s e : ℕ) : Bool :=
  decide (min e n - min s n = e - s) || decide (e - s = 1)

/-- Slice assignment `corrected[s:s+len(vals)] = vals`: replace the elements of `buf` from
position `s` on by `vals`, truncated at the end of the buffer. -/
def writeFrom : ℕ → List Q → List Q → List Q
  | _, _, [] => []
  | 0, [], buf => buf
  | 0, v :: vs, _ :: buf => v :: writeFrom 0 vs buf
  | s + 1, vals, x :: buf => x :: writeFrom s vals buf

/-- One iteration of the correction loop of `interpolate_clicks` for the
region `r = (start, end)`: gather support points from the *original*
buffer, skip if fewer than 2, try the cubic fit, fall back to the linear
fit, and on total failure (or a failing slice assignment, which the same
`except` chain catches) leave the buffer unchanged. -/
def processRegion (audio : List Q) (buf : List Q) (r : ℕ × ℕ) : List Q :=
  let s := r.1
  let e := r.2
  let xs := supportXs audio.length s e
  let ys := supportYs audio s e
  if xs.length < 2 then buf
  else if sliceAssignOk buf.length s e = false then buf
  else
    let ts := pyRangeNat s e
    match cubicFitValues xs ys ts with
    | some vals => writeFrom s vals buf
    | none =>
      match linearFitValues xs ys ts with
      | some vals => writeFrom s vals buf
      | none => buf

/-- Embedding of `AudioClickPopRemover.interpolate_clicks`: start from a
copy of the input buffer and process the regions in order; support points
are always drawn from the original buffer. -/
def interpolate_clicks (audio : List Q) (clicks : List (ℕ × ℕ)) : List Q :=
  clicks.foldl (processRegion audio) audio

end Click

section CorrectorLemmas

theorem writeFrom_getD_outside :
    ∀ (buf : List Q) (s : ℕ) (vals : List Q) (i : ℕ),
      (i < s ∨ s + vals.length ≤ i) →
      (Click.writeFrom s vals buf).getD i 0 = buf.getD i 0 := by
  intro buf
  induction buf with
  | nil => intro s vals i h; cases s <;> cases vals <;> rfl
  | cons x bt ih =>
    intro s vals i h
    cases s with
    | zero =>
      cases vals with
      | nil => rfl
      | cons v vt =>
        rcases h with h | h
        · exact absurd h (Nat.not_lt_zero i)
        · cases i with
          | zero => simp at h
          | succ j =>
            show (Click.writeFrom 0 vt bt).getD j 0 = bt.getD j 0
            exact ih 0 vt j (Or.inr (by simpa using Nat.le_of_succ_le_succ h))
    | succ s' =>
      cases i with
      | zero => rfl
      | succ j =>
        show (Click.writeFrom s' vals bt).getD j 0 = bt.getD j 0
        refine ih s' vals j ?_
        rcases h with h | h
        · exact Or.inl (Nat.lt_of_succ_lt_succ h)
        · exact Or.inr (by omega)

theorem writeFrom_getD_inside :
    ∀ (buf : List Q) (s : ℕ) (vals : List Q) (i : ℕ),
      s ≤ i → i - s < vals.length → i < buf.length →
      (Click.writeFrom s vals buf).getD i 0 = vals.getD (i - s) 0 := by
  intro buf
  induction buf with
  | nil => intro s vals i h1 h2 h3; simp at h3
  | cons x bt ih =>
    intro s vals i h1 h2 h3
    cases s with
    | zero =>
      cases vals with
      | nil => simp at h2
      | cons v vt =>
        cases i with
        | zero => rfl
        | succ j =>
          show (Click.writeFrom 0 vt bt).getD j 0 = (v :: vt).getD (j + 1) 0
          rw [List.getD_cons_succ]
          exact ih 0 vt j (Nat.zero_le j) (by simpa using h2) (Nat.lt_of_succ_lt_succ h3)
    | succ s' =>
      cases i with
      | zero => omega
      | succ j =>
        show (Click.writeFrom s' vals bt).getD j 0 = vals.getD (j + 1 - (s' + 1)) 0
        have hj : j + 1 - (s' + 1) = j - s' := by omega
        rw [hj]
        exact ih s' vals j (Nat.le_of_succ_le_succ h1) (by omega)
          (Nat.lt_of_succ_lt_succ h3)

theorem pyRangeNat_length (a b : ℕ) : (Click.pyRangeNat a b).length = b - a := by
  simp [Click.pyRangeNat]

theorem cubicFitValues_length {xs : List ℕ} {ys : List Q} {ts : List ℕ} {vals : List Q}
    (h : Click.cubicFitValues xs ys ts = some vals) : vals.length = ts.length := by
  unfold Click.cubicFitValues at h
  split_ifs at h
  dsimp only at h
  cases hg : Click.gaussSolve xs.length (Click.splineRows (xs.map Qnat) ys) with
  | none => rw [hg] at h; cases h
  | some Ms =>
    rw [hg] at h
    dsimp only at h
    cases h
    simp

theorem linearFitValues_length {xs : List ℕ} {ys : List Q} {ts : List ℕ} {vals : List Q}
    (h : Click.linearFitValues xs ys ts = some vals) : vals.length = ts.length := by
  unfold Click.linearFitValues at h
  split_ifs at h
  cases h
  simp

theorem processRegion_getD_outside (audio buf : List Q) (r : ℕ × ℕ) (i : ℕ)
    (h : ¬ (r.1 ≤ i ∧ i < r.2)) :
    (Click.processRegion audio buf r).getD i 0 = buf.getD i 0 := by
  unfold Click.processRegion
  dsimp only
  have hout : ∀ vals : List Q, vals.length = r.2 - r.1 →
      (Click.writeFrom r.1 vals buf).getD i 0 = buf.getD i 0 := by
    intro vals hlen
    refine writeFrom_getD_outside buf r.1 vals i ?_
    rw [hlen]
    omega
  split_ifs with h1 h2
  · rfl
  · rfl
  · cases hc : Click.cubicFitValues (Click.supportXs audio.length r.1 r.2)
        (Click.supportYs audio r.1 r.2) (Click.pyRangeNat r.1 r.2) with
    | some vals =>
      exact hout vals (by rw [cubicFitValues_length hc, pyRangeNat_length])
    | none =>
      cases hl : Click.linearFitValues (Click.supportXs audio.length r.1 r.2)
          (Click.supportYs audio r.1 r.2) (Click.pyRangeNat r.1 r.2) with
      | some vals =>
        exact hout vals (by rw [linearFitValues_length hl, pyRangeNat_length])
      | none => rfl

theorem foldl_processRegion_outside (audio : List Q) (i : ℕ) :
    ∀ (regions : List (ℕ × ℕ)) (buf : List Q),
      (∀ r ∈ regions, ¬ (r.1 ≤ i ∧ i < r.2)) →
      (regions.foldl (Click.processRegion audio) buf).getD i 0 = buf.getD i 0 := by
  intro regions
  induction regions with
  | nil => intro buf h; rfl
  | cons r rest ih =>
    intro buf h
    rw [List.foldl_cons]
    rw [ih (Click.processRegion audio buf r) (fun q hq => h q (List.mem_cons_of_mem r hq))]
    exact processRegion_getD_outside audio buf r i (h r (List.mem_cons_self r rest))

end CorrectorLemmas

/-- Claim C2: correction never perturbs untouched samples.  For every
buffer and every region list, the result of `interpolate_clicks` agrees
with the input at every index that is not inside any region. -/
theorem C2_locality (audio : List Q) (regions : List (ℕ × ℕ)) (i : ℕ)
    (h : ∀ r ∈ regions, ¬ (r.1 ≤ i ∧ i < r.2)) :
    (Click.interpolate_clicks audio regions).getD i 0 = audio.getD i 0 :=
  foldl_processRegion_outside audio i regions audio h

/-- Three-sample buffer for the C2 witness. -/
def exW : List Q := [⟨5, 1⟩, ⟨7, 1⟩, ⟨9, 1⟩]

/-- Witness for C2: index 0 lies outside the single region `(1, 2)` and is
returned unchanged. -/
theorem C2_witness :
    (Click.interpolate_clicks exW [(1, 2)]).getD 0 0 = exW.getD 0 0 :=
  C2_locality exW [(1, 2)] 0 (by decide)

/-- Claim C7: per-region correction is a degradation chain that never
aborts the rest of the buffer: (1) with fewer than 2 support points the
region is left unmodified; (2) when the cubic fit fails, the linear fit
over the same support points supplies the written values; (3) when the
linear fit also fails, the region is left unmodified; and (4) the loop
always continues with the remaining regions. -/
theorem C7_degradation (audio buf : List Q) (s e : ℕ) (rest : List (ℕ × ℕ)) :
    ((Click.supportXs audio.length s e).length < 2 →
        Click.processRegion audio buf (s, e) = buf)
  ∧ (∀ vals : List Q, ¬ (Click.supportXs audio.length s e).length < 2 →
        Click.sliceAssignOk buf.length s e = true →
        Click.cubicFitValues (Click.supportXs audio.length s e)
            (Click.supportYs audio s e) (Click.pyRangeNat s e) = none →
        Click.linearFitValues (Click.supportXs audio.length s e)
            (Click.supportYs audio s e) (Click.pyRangeNat s e) = some vals →
        ∀ j, j < vals.length → s + j < buf.length →
          (Click.processRegion audio buf (s, e)).getD (s + j) 0 = vals.getD j 0)
  ∧ (Click.cubicFitValues (Click.supportXs audio.length s e)
        (Click.supportYs audio s e) (Click.pyRangeNat s e) = none →
      Click.linearFitValues (Click.supportXs audio.length s e)
        (Click.supportYs audio s e) (Click.pyRangeNat s e) = none →
      Click.processRegion audio buf (s, e) = buf)
  ∧ ((s, e) :: rest).foldl (Click.processRegion audio) buf
      = rest.foldl (Click.processRegion audio) (Click.processRegion audio buf (s, e)) := by
  refine ⟨?_, ?_, ?_, rfl⟩
  · intro hlt
    unfold Click.processRegion
    dsimp only
    rw [if_pos hlt]
  · intro vals hge hok hcub hlin j hj hjb
    unfold Click.processRegion
    dsimp only
    rw [if_neg hge, if_neg (by simp [hok]), hcub, hlin]
    have hsle : s ≤ s + j := Nat.le_add_right s j
    have hij : s + j - s = j := by omega
    rw [writeFrom_getD_inside buf s vals (s + j) hsle (by omega) hjb, hij]
  · intro hcub hlin
    unfold Click.processRegion
    dsimp only
    split_ifs with h1 h2
    · rfl
    · rfl
    · rw [hcub, hlin]

/-- Two-sample buffer whose single region `(0, 2)` has no support points at
all. -/
def exW7a : List Q := [⟨1, 1⟩, ⟨1, 1⟩]

/-- Four-sample buffer whose region `(1, 3)` has exactly the 2 support
points `{0, 3}`, so the cubic fit fails and the linear fit through
`(0, 0)` and `(3, 6)` writes `2` and `4`. -/
def exW7b : List Q := [⟨0, 1⟩, ⟨9, 1⟩, ⟨9, 1⟩, ⟨6, 1⟩]

/-- Witness for C7: each branch of the degradation chain at a concrete
input — (1) no support points leaves the buffer unchanged, (2) the linear
fallback writes the linear interpolant's value, (3) both fits failing
leaves the buffer unchanged, (4) the fold continues over the rest. -/
theorem C7_witness :
    Click.processRegion exW7a exW7a (0, 2) = exW7a
  ∧ (Click.processRegion exW7b exW7b (1, 3)).getD 1 0 = ([⟨6, 3⟩, ⟨12, 3⟩] : List Q).getD 0 0
  ∧ Click.processRegion exW7a exW7a (0, 3) = exW7a
  ∧ ((0, 2) :: [(5, 6)]).foldl (Click.processRegion exW7a) exW7a
      = [(5, 6)].foldl (Click.processRegion exW7a) (Click.processRegion exW7a exW7a (0, 2)) :=
  ⟨(C7_degradation exW7a exW7a 0 2 []).1 (by decide),
   (C7_degradation exW7b exW7b 1 3 []).2.1 [⟨6, 3⟩, ⟨12, 3⟩] (by decide) (by decide)
     (by decide) (by decide) 0 (by decide) (by decide),
   (C7_degradation exW7a exW7a 0 3 []).2.2.1 (by decide) (by decide),
   (C7_degradation exW7a exW7a 0 2 [(5, 6)]).2.2.2⟩

namespace Trim

/-- Mean of the squared samples, `np.mean(frame ** 2)` — the square of the
frame RMS.  All `distance_ratio ≤ 0.5` comparisons of the source are
equivalent to comparisons between such mean squares (see `ratioOk`), so no
square root is needed.  For the empty list the division yields a zero
denominator (NumPy's NaN), which fails every comparison. -/
def meanSq (l : List Q) : Q := Click.sumQ (l.map (fun x => x * x)) / Qnat l.length

/-- The square of `overall_rms`: the divisor of the source's
`distance_ratio = abs(frame_rms - overall_rms) / overall_rms` (line 288 of
the trimmer), which is *not* epsilon-guarded — only the dB logarithms add
`1e-10`. -/
def overallMeanSq (audio : List Q) : Q := meanSq audio

/-- The criterion `distance_ratio ≤ 0.5` in squared form: for positive
`overall_rms`, `|frame_rms - overall_rms| / overall_rms ≤ 1/2` holds iff
`overall_rms/2 ≤ frame_rms ≤ 3*overall_rms/2`, iff
`msO/4 ≤ msF ≤ 9*msO/4` on the mean squares.  When `overall_rms = 0` the
source divides zero by zero, and the resulting NaN compares false: the
`0 < msO` guard models exactly that. -/
def ratioOk (msF msO : Q) : Bool :=
  decide ((0 : Q) < msO) && decide (msO / ⟨4, 1⟩ ≤ msF) && decide (msF ≤ ⟨9, 4⟩ * msO)

/-- One frame loop of `detect_silence`: walk the frame start indices in
order; a frame shorter than half the nominal size breaks the loop, the
first frame satisfying the criterion is returned. -/
def scanFrames (audio : List Q) (flen : ℕ) (msO : Q) : List ℕ → Option ℕ
  | [] => none
  | i :: rest =>
    let frame := (audio.drop i).take flen
    if 2 * frame.length < flen then none
    else if ratioOk (meanSq frame) msO then some i
    else scanFrames audio flen msO rest

/-- Python `range(a, b, step)` for positive `step`. -/
def rangeFwd (a b step : ℕ) : List ℕ :=
  (List.range ((b - a + step - 1) / step)).map (fun (k : ℕ) => a + k * step)

/-- Python `range(a, stop, -step)` for positive `step`, as naturals (every
use in the source stays nonnegative, and a negative Python start yields
the same empty range as the clamped natural). -/
def rangeBack (a stop step : ℕ) : List ℕ :=
  (List.range ((a - stop + step - 1) / step)).map (fun (k : ℕ) => a - k * step)

/-- Coarse frame length `int(0.5 * sample_rate)` in samples. -/
def coarseLen (sr : ℕ) : ℕ := sr / 2

/-- Fine frame length `int(0.1 * sample_rate)` in samples. -/
def fineLen (sr : ℕ) : ℕ := sr / 10

/-- Phase 1: coarse forward scan in 0.5 s frames from time 0. -/
def startCoarseIdx (audio : List Q) (sr : ℕ) : Option ℕ :=
  scanFrames audio (coarseLen sr) (meanSq audio)
    (rangeFwd 0 audio.length (coarseLen sr))

/-- Phase 2: fine forward scan in 0.1 s frames over a window starting one
coarse frame before the coarse boundary. -/
def startFineIdx (audio : List Q) (sr : ℕ) : Option ℕ :=
  scanFrames audio (fineLen sr) (meanSq audio)
    (rangeFwd ((startCoarseIdx audio sr).getD 0 - coarseLen sr)
      (min ((startCoarseIdx audio sr).getD 0 - coarseLen sr + 2 * coarseLen sr) audio.length)
      (fineLen sr))

/-- Phase 3: coarse backward scan in 0.5 s frames from the end. -/
def endCoarseIdx (audio : List Q) (sr : ℕ) : Option ℕ :=
  scanFrames audio (coarseLen sr) (meanSq audio)
    (rangeBack (audio.length - coarseLen sr) 0 (coarseLen sr))

/-- Sample index `int(track_end_coarse * sample_rate)`: the coarse end boundary in
samples (`i + coarse_samples` for a match, the signal length
otherwise). -/
def endCoarseSample (audio : List Q) (sr : ℕ) : ℕ :=
  match endCoarseIdx audio sr with
  | some i => i + coarseLen sr
  | none => audio.length

/-- Phase 4: fine backward scan in 0.1 s frames below
`min(len(audio), coarse end + coarse_samples)`. -/
def endFineIdx (audio : List Q) (sr : ℕ) : Option ℕ :=
  scanFrames audio (fineLen sr) (meanSq audio)
    (rangeBack (min audio.length (endCoarseSample audio sr + coarseLen sr) - fineLen sr)
      (min audio.length (endCoarseSample audio sr + coarseLen sr) - 2 * coarseLen sr)
      (fineLen sr))

/-- Embedding of `AudioSilenceTrimmer.detect_silence` on a decoded mono
signal: the four coarse/fine phases followed by the assembly of
`(start_time, end_time, total_duration)` in seconds.  `none` is the
`(None, None, 0)` of the source's blanket `except` branch; it is reached
exactly when one of the Python `range` steps is zero, i.e. for sample
rates below 10 Hz. -/
def detect_silence (audio : List Q) (sr : ℕ) : Option (Q × Q × Q) :=
  if coarseLen sr = 0 ∨ fineLen sr = 0 then none
  else
    let s := Qnat ((startFineIdx audio sr).getD ((startCoarseIdx audio sr).getD 0))
        / Qnat sr
    let eSample :=
      match endFineIdx audio sr with
      | some i => i + fineLen sr
      | none => endCoarseSample audio sr
    some (s, Qnat eSample / Qnat sr, Qnat audio.length / Qnat sr)

/-- The epsilon-guarded argument of the source's dB logarithms:
`overall_rms + 1e-10` and `frame_rms + 1e-10`. -/
def log10GuardArg (rms : Q) : Q := rms + ⟨1, 10000000000⟩

end Trim

/-- Embedding of the window-size validation in `process_file` of the click
remover: a window size below 3 or above 25 is rejected with an error
before the audio file is even loaded (no partial work); an accepted even
window size is silently incremented to the next odd value.  `none` models
the log-error-and-return path. -/
def validate_window (ws : Int) : Option Int :=
  if ws < 3 ∨ 25 < ws then none
  else if ws % 2 = 0 then some (ws + 1) else some ws

section TrimChecks

/-- The C3 counterexample signal: 18 samples at 10 Hz, loud at indices
5, 8, 9, 10. -/
def ex3 : List Q :=
  [0, 0, 0, 0, 0, ⟨1, 1⟩, 0, 0, ⟨1, 1⟩, ⟨1, 1⟩, ⟨1, 1⟩, 0, 0, 0, 0, 0, 0, 0]

example : Trim.detect_silence ex3 10 = some (⟨10, 10⟩, ⟨8, 10⟩, ⟨18, 10⟩) := by decide

/-- The C6 counterexample signal: 8 samples at 10 Hz. -/
def ex6 : List Q := [0, 0, 0, 0, 0, ⟨4, 1⟩, ⟨1, 1⟩, 0]

example : Trim.startCoarseIdx ex6 10 = none := by decide
example : Trim.detect_silence ex6 10 = some (⟨6, 10⟩, ⟨7, 10⟩, ⟨8, 10⟩) := by decide

/-- The all-zero 10-sample signal of the C9 counterexample. -/
def zeros10 : List Q := List.replicate 10 0

example : Trim.overallMeanSq zeros10 = ⟨0, 10⟩ := by decide
example : Trim.detect_silence zeros10 10 = some (⟨0, 10⟩, ⟨10, 10⟩, ⟨10, 10⟩) := by decide

end TrimChecks

section TrimLemmas

theorem scanFrames_mem {audio : List Q} {flen : ℕ} {msO : Q} :
    ∀ {idxs : List ℕ} {i : ℕ}, Trim.scanFrames audio flen msO idxs = some i → i ∈ idxs := by
  intro idxs
  induction idxs with
  | nil => intro i h; exact Option.noConfusion h
  | cons j rest ih =>
    intro i h
    unfold Trim.scanFrames at h
    dsimp only at h
    split_ifs at h
    all_goals first
      | exact Option.noConfusion h
      | (have hj : j = i := Option.some.inj h
         rw [← hj]
         exact List.mem_cons_self j rest)
      | exact List.mem_cons_of_mem j (ih h)

theorem rangeFwd_mem {a b step x : ℕ} (hs : 1 ≤ step) (h : x ∈ Trim.rangeFwd a b step) :
    a ≤ x ∧ x < b := by
  unfold Trim.rangeFwd at h
  obtain ⟨k, hk, rfl⟩ := List.mem_map.mp h
  rw [List.mem_range] at hk
  have hk1 : (k + 1) * step ≤ b - a + step - 1 :=
    (Nat.le_div_iff_mul_le hs).mp hk
  have hexp : (k + 1) * step = k * step + step := by ring
  constructor
  · exact Nat.le_add_right a (k * step)
  · omega

theorem rangeBack_mem {a stop step x : ℕ} (hs : 1 ≤ step) (h : x ∈ Trim.rangeBack a stop step) :
    stop < x ∧ x ≤ a := by
  unfold Trim.rangeBack at h
  obtain ⟨k, hk, rfl⟩ := List.mem_map.mp h
  rw [List.mem_range] at hk
  have hk1 : (k + 1) * step ≤ a - stop + step - 1 :=
    (Nat.le_div_iff_mul_le hs).mp hk
  have hexp : (k + 1) * step = k * step + step := by ring
  constructor
  · omega
  · exact Nat.sub_le a (k * step)

theorem Qdiv_natnat (x n : ℕ) : Qnat x / Qnat n = (⟨x, n⟩ : Q) := by
  show Qdiv (Qnat x) (Qnat n) = _
  unfold Qdiv Qnat
  rw [if_neg (not_lt.mpr (Int.natCast_nonneg n))]
  simp

theorem Qval_mk_nat (x n : ℕ) : Qval ⟨(x : Int), (n : Int)⟩ = (x : ℚ) / (n : ℚ) := by
  unfold Qval
  push_cast
  rfl

/-- The start boundary of `detect_silence` is the index of some scanned
sample, hence at most the signal length. -/
theorem startIdx_le (audio : List Q) (sr : ℕ) :
    (Trim.startFineIdx audio sr).getD ((Trim.startCoarseIdx audio sr).getD 0)
      ≤ audio.length := by
  cases hf : Trim.startFineIdx audio sr with
  | some i =>
    rw [Option.getD_some]
    unfold Trim.startFineIdx at hf
    by_cases hfs : 1 ≤ Trim.fineLen sr
    · have hmem := scanFrames_mem hf
      have := (rangeFwd_mem hfs hmem).2
      omega
    · have hz : Trim.fineLen sr = 0 := by omega
      rw [hz] at hf
      unfold Trim.rangeFwd at hf
      simp at hf
      cases hf
  | none =>
    rw [Option.getD_none]
    cases hc : Trim.startCoarseIdx audio sr with
    | some i =>
      rw [Option.getD_some]
      unfold Trim.startCoarseIdx at hc
      by_cases hcs : 1 ≤ Trim.coarseLen sr
      · exact ((rangeFwd_mem hcs (scanFrames_mem hc)).2).le
      · have hz : Trim.coarseLen sr = 0 := by omega
        rw [hz] at hc
        unfold Trim.rangeFwd at hc
        simp at hc
        cases hc
    | none => exact Nat.zero_le _
  
/-- The end boundary sample of `detect_silence` is at most the signal
length. -/
theorem endSample_le (audio : List Q) (sr : ℕ) :
    (match Trim.endFineIdx audio sr with
      | some i => i + Trim.fineLen sr
      | none => Trim.endCoarseSample audio sr) ≤ audio.length := by
  have hcoarse : Trim.endCoarseSample audio sr ≤ audio.length := by
    unfold Trim.endCoarseSample
    cases hc : Trim.endCoarseIdx audio sr with
    | some i =>
      show i + Trim.coarseLen sr ≤ audio.length
      unfold Trim.endCoarseIdx at hc
      by_cases hcs : 1 ≤ Trim.coarseLen sr
      · have hb := rangeBack_mem hcs (scanFrames_mem hc)
        omega
      · have hz : Trim.coarseLen sr = 0 := by omega
        rw [hz] at hc
        unfold Trim.rangeBack at hc
        simp at hc
        cases hc
    | none => exact le_refl _
  cases hf : Trim.endFineIdx audio sr with
  | some i =>
    show i + Trim.fineLen sr ≤ audio.length
    unfold Trim.endFineIdx at hf
    by_cases hfs : 1 ≤ Trim.fineLen sr
    · have hb := rangeBack_mem hfs (scanFrames_mem hf)
      have hmin : min audio.length (Trim.endCoarseSample audio sr + Trim.coarseLen sr)
          ≤ audio.length := Nat.min_le_left _ _
      set eS := min audio.length (Trim.endCoarseSample audio sr + Trim.coarseLen sr) with heS
      omega
    · have hz : Trim.fineLen sr = 0 := by omega
      rw [hz] at hf
      unfold Trim.rangeBack at hf
      simp at hf
      cases hf
  | none => exact hcoarse

end TrimLemmas

/-- Claim C3: FALSE as stated.  On the 18-sample signal `ex3` at 10 Hz the
locator returns `start_time = 1 s` but `end_time = 0.8 s`: the coarse
forward grid matches first at sample 10 while the coarse backward grid
(whose frames sit at different offsets) matches first at sample 3, and no
fine frame matches at all, so the returned triple violates
`start_time ≤ end_time`.  The caller `process_file` separately discards
such results through its `duration <= 0` check (lines 432-436), which is
itself evidence the source can produce them. -/
theorem C3_counterexample :
    Trim.detect_silence ex3 10 = some (⟨10, 10⟩, ⟨8, 10⟩, ⟨18, 10⟩)
      ∧ Qval ⟨10, 10⟩ = 1 ∧ Qval ⟨8, 10⟩ = 4 / 5 ∧ Qval ⟨18, 10⟩ = 9 / 5
      ∧ ¬ Qval (⟨10, 10⟩ : Q) ≤ Qval (⟨8, 10⟩ : Q) := by
  refine ⟨by decide, ?_, ?_, ?_, ?_⟩
  · show ((10 : ℤ) : ℚ) / ((10 : ℤ) : ℚ) = 1
    norm_num
  · show ((8 : ℤ) : ℚ) / ((10 : ℤ) : ℚ) = 4 / 5
    norm_num
  · show ((18 : ℤ) : ℚ) / ((10 : ℤ) : ℚ) = 9 / 5
    norm_num
  · show ¬ ((10 : ℤ) : ℚ) / ((10 : ℤ) : ℚ) ≤ ((8 : ℤ) : ℚ) / ((10 : ℤ) : ℚ)
    norm_num

/-- Claim C3 (amended): for every signal and sample rate on which
`detect_silence` returns a triple `(start_time, end_time,
total_duration)`, the weaker invariant `0 ≤ start_time ≤ total_duration`
and `0 ≤ end_time ≤ total_duration` holds; `start_time ≤ end_time` can
fail and is enforced only by the caller's `duration <= 0` check. -/
theorem C3_amended (audio : List Q) (sr : ℕ) (s e T : Q)
    (h : Trim.detect_silence audio sr = some (s, e, T)) :
    0 ≤ Qval s ∧ Qval s ≤ Qval T ∧ 0 ≤ Qval e ∧ Qval e ≤ Qval T := by
  unfold Trim.detect_silence at h
  split_ifs at h with hz
  dsimp only at h
  rw [Option.some_inj, Prod.ext_iff, Prod.ext_iff] at h
  obtain ⟨hs, he, hT⟩ := h
  have hsr : 0 < sr := by
    rcases Nat.eq_zero_or_pos sr with h0 | h0
    · exfalso; exact hz (Or.inl (by simp [Trim.coarseLen, h0]))
    · exact h0
  have hsrq : (0 : ℚ) < (sr : ℚ) := by exact_mod_cast hsr
  have hmk : ∀ x n : ℕ, Qval (Qnat x / Qnat n) = (x : ℚ) / (n : ℚ) := by
    intro x n
    rw [Qdiv_natnat, Qval_mk_nat]
  have hbound : ∀ x : ℕ, x ≤ audio.length →
      0 ≤ Qval (Qnat x / Qnat sr)
        ∧ Qval (Qnat x / Qnat sr) ≤ Qval (Qnat audio.length / Qnat sr) := by
    intro x hx
    rw [hmk, hmk]
    constructor
    · exact div_nonneg (by exact_mod_cast Nat.zero_le x) hsrq.le
    · refine (div_le_div_iff₀ hsrq hsrq).mpr ?_
      exact mul_le_mul_of_nonneg_right (by exact_mod_cast hx) hsrq.le
  subst hs he hT
  have h1 := hbound _ (startIdx_le audio sr)
  have h2 := hbound _ (endSample_le audio sr)
  exact ⟨h1.1, h1.2, h2.1, h2.2⟩

/-- Witness for C3 (amended) at the counterexample input, where
`detect_silence ex3 10 = some (1, 4/5, 9/5)` in seconds. -/
theorem C3_amended_witness :
    0 ≤ Qval ⟨10, 10⟩ ∧ Qval ⟨10, 10⟩ ≤ Qval ⟨18, 10⟩
      ∧ 0 ≤ Qval ⟨8, 10⟩ ∧ Qval ⟨8, 10⟩ ≤ Qval ⟨18, 10⟩ :=
  C3_amended ex3 10 ⟨10, 10⟩ ⟨8, 10⟩ ⟨18, 10⟩ (by decide)

/-- The components of a successful `detect_silence` run, exposed for the
per-side default analysis. -/
theorem detect_silence_start (audio : List Q) (sr : ℕ)
    (hcs : Trim.coarseLen sr ≠ 0) (hfs : Trim.fineLen sr ≠ 0) :
    ∃ r : Q × Q × Q, Trim.detect_silence audio sr = some r
      ∧ r.1 = Qnat ((Trim.startFineIdx audio sr).getD
            ((Trim.startCoarseIdx audio sr).getD 0)) / Qnat sr
      ∧ r.2.1 = Qnat (match Trim.endFineIdx audio sr with
            | some i => i + Trim.fineLen sr
            | none => Trim.endCoarseSample audio sr) / Qnat sr
      ∧ r.2.2 = Qnat audio.length / Qnat sr := by
  unfold Trim.detect_silence
  rw [if_neg (not_or.mpr ⟨hcs, hfs⟩)]
  exact ⟨_, rfl, rfl, rfl, rfl⟩

/-- Claim C6: FALSE as stated.  On `ex6` at 10 Hz no coarse frame of the
start scan satisfies the criterion, so the coarse boundary defaults to 0 —
but the fine phase still scans a window anchored at that default and finds
a matching 0.1 s frame at 0.6 s, which becomes the returned start time:
the returned boundary is not the extreme value. -/
theorem C6_counterexample :
    Trim.startCoarseIdx ex6 10 = none
      ∧ Trim.detect_silence ex6 10 = some (⟨6, 10⟩, ⟨7, 10⟩, ⟨8, 10⟩)
      ∧ Qval ⟨6, 10⟩ ≠ 0 := by
  refine ⟨by decide, by decide, ?_⟩
  show ((6 : ℤ) : ℚ) / ((10 : ℤ) : ℚ) ≠ 0
  norm_num

/-- Claim C6 (amended): when no coarse frame satisfies the criterion, only
the *coarse* boundary defaults to the extreme; the returned boundary is
the extreme value provided the subsequent fine scan around that default
also finds no matching frame (otherwise the fine match overrides the
default). -/
theorem C6_amended (audio : List Q) (sr : ℕ)
    (hcs : Trim.coarseLen sr ≠ 0) (hfs : Trim.fineLen sr ≠ 0) :
    (Trim.startCoarseIdx audio sr = none → Trim.startFineIdx audio sr = none →
        ∃ r : Q × Q × Q, Trim.detect_silence audio sr = some r ∧ Qval r.1 = 0)
  ∧ (Trim.endCoarseIdx audio sr = none → Trim.endFineIdx audio sr = none →
        ∃ r : Q × Q × Q, Trim.detect_silence audio sr = some r ∧ r.2.1 = r.2.2) := by
  obtain ⟨r, hr, hs, he, hT⟩ := detect_silence_start audio sr hcs hfs
  constructor
  · intro h1 h2
    refine ⟨r, hr, ?_⟩
    rw [hs, h1, h2, Option.getD_none, Option.getD_none, Qdiv_natnat, Qval_mk_nat]
    norm_num
  · intro h1 h2
    refine ⟨r, hr, ?_⟩
    rw [he, hT, h2]
    show Qnat (Trim.endCoarseSample audio sr) / Qnat sr = Qnat audio.length / Qnat sr
    unfold Trim.endCoarseSample
    rw [h1]

/-- Twelve-sample all-zero signal for the C6 witness (no frame ever
matches, both boundaries default to the extremes). -/
def zeros12 : List Q := List.replicate 12 0

/-- Witness for C6 (amended): on an all-zero signal no coarse and no fine
frame matches and the returned boundaries are the extremes. -/
theorem C6_witness :
    (∃ r : Q × Q × Q, Trim.detect_silence zeros12 10 = some r ∧ Qval r.1 = 0)
  ∧ (∃ r : Q × Q × Q, Trim.detect_silence zeros12 10 = some r ∧ r.2.1 = r.2.2) :=
  ⟨(C6_amended zeros12 10 (by decide) (by decide)).1 (by decide) (by decide),
   (C6_amended zeros12 10 (by decide) (by decide)).2 (by decide) (by decide)⟩

section ZeroSignalLemmas

theorem Qval_Qnat (n : ℕ) : Qval (Qnat n) = (n : ℚ) := by
  unfold Qval Qnat
  push_cast
  simp

theorem foldl_add_val : ∀ (l : List Q) (acc : Q), (∀ x ∈ l, Qwf x) → Qwf acc →
    Qwf (l.foldl (· + ·) acc)
      ∧ Qval (l.foldl (· + ·) acc) = Qval acc + (l.map Qval).sum := by
  intro l
  induction l with
  | nil => intro acc h hacc; exact ⟨hacc, by simp⟩
  | cons x t ih =>
    intro acc h hacc
    have hx : Qwf x := h x (List.mem_cons_self x t)
    have ht : ∀ y ∈ t, Qwf y := fun y hy => h y (List.mem_cons_of_mem x hy)
    obtain ⟨w1, v1⟩ := ih (acc + x) ht (Qwf_add hacc hx)
    refine ⟨w1, ?_⟩
    rw [List.foldl_cons, List.map_cons, List.sum_cons, v1,
      Qval_add hacc.ne' hx.ne']
    ring

theorem sumQ_val {l : List Q} (h : ∀ x ∈ l, Qwf x) :
    Qwf (Click.sumQ l) ∧ Qval (Click.sumQ l) = (l.map Qval).sum := by
  have hmain := foldl_add_val l 0 h Qwf_zero
  exact ⟨hmain.1, by rw [Click.sumQ] at *; rw [hmain.2, Qval_zero, zero_add]⟩

theorem meanSq_val {l : List Q} (h : ∀ x ∈ l, Qwf x) :
    Qval (Trim.meanSq l) = (l.map (fun x => Qval x * Qval x)).sum / (l.length : ℚ) := by
  unfold Trim.meanSq
  have hsq : ∀ x ∈ l.map (fun x => x * x), Qwf x := by
    intro x hx
    obtain ⟨a, ha, rfl⟩ := List.mem_map.mp hx
    exact Qwf_mul (h a ha) (h a ha)
  rw [Qval_div, (sumQ_val hsq).2, Qval_Qnat, List.map_map]
  congr 1
  exact congrArg List.sum (List.map_congr_left (fun a _ => Qval_mul a a))

theorem sum_sq_zero_iff (l : List ℚ) :
    (l.map (fun x => x * x)).sum = 0 ↔ ∀ x ∈ l, x = 0 := by
  induction l with
  | nil => simp
  | cons a t ih =>
    rw [List.map_cons, List.sum_cons]
    have h1 : 0 ≤ a * a := mul_self_nonneg a
    have h2 : 0 ≤ (t.map (fun x => x * x)).sum := by
      apply List.sum_nonneg
      intro x hx
      obtain ⟨b, hb, rfl⟩ := List.mem_map.mp hx
      exact mul_self_nonneg b
    constructor
    · intro h
      have hz := (add_eq_zero_iff_of_nonneg h1 h2).mp h
      intro x hx
      rcases List.mem_cons.mp hx with rfl | hx
      · exact mul_self_eq_zero.mp hz.1
      · exact ih.mp hz.2 x hx
    · intro h
      have ha : a = 0 := h a (List.mem_cons_self a t)
      have hrest : (t.map (fun x => x * x)).sum = 0 :=
        ih.mpr (fun x hx => h x (List.mem_cons_of_mem a hx))
      rw [ha, hrest, mul_zero, add_zero]

theorem foldl_add_num_zero : ∀ (l : List Q) (acc : Q), (∀ x ∈ l, x.num = 0) →
    acc.num = 0 → (l.foldl (· + ·) acc).num = 0 := by
  intro l
  induction l with
  | nil => intro acc h hacc; exact hacc
  | cons x t ih =>
    intro acc h hacc
    rw [List.foldl_cons]
    refine ih (acc + x) (fun y hy => h y (List.mem_cons_of_mem x hy)) ?_
    show acc.num * x.den + x.num * acc.den = 0
    rw [hacc, h x (List.mem_cons_self x t)]
    ring

theorem meanSq_num_zero {l : List Q} (h : ∀ x ∈ l, x.num = 0) :
    (Trim.meanSq l).num = 0 := by
  unfold Trim.meanSq Click.sumQ
  have hs : ((l.map (fun x => x * x)).foldl (· + ·) 0).num = 0 := by
    refine foldl_add_num_zero _ 0 ?_ rfl
    intro x hx
    obtain ⟨a, ha, rfl⟩ := List.mem_map.mp hx
    show a.num * a.num = 0
    rw [h a ha]
    ring
  show (Qdiv _ _).num = 0
  simp only [Qdiv, Qnat]
  rw [if_neg (not_lt.mpr (Int.natCast_nonneg _))]
  show ((l.map (fun x => x * x)).foldl (· + ·) 0).num * (1 : ℤ) = 0
  rw [hs]
  ring

theorem scanFrames_num_zero {audio : List Q} {flen : ℕ} {msO : Q} (h : msO.num = 0) :
    ∀ idxs, Trim.scanFrames audio flen msO idxs = none := by
  intro idxs
  induction idxs with
  | nil => rfl
  | cons j rest ih =>
    unfold Trim.scanFrames
    dsimp only
    have hr : Trim.ratioOk (Trim.meanSq ((audio.drop j).take flen)) msO = false := by
      unfold Trim.ratioOk
      have hdec : decide ((0 : Q) < msO) = false := by
        apply decide_eq_false
        show ¬ Qlt 0 msO
        unfold Qlt
        show ¬ ((0 : Q).num * msO.den < msO.num * (0 : Q).den)
        rw [h]
        show ¬ ((0 : Int) * msO.den < 0 * 1)
        simp
      rw [hdec]
      simp
    split_ifs with h1 h2
    · rfl
    · rw [hr] at h2
      exact Bool.noConfusion h2
    · exact ih

end ZeroSignalLemmas

/-- Claim C9: FALSE as stated.  The divisor of
`distance_ratio = abs(frame_rms - overall_rms) / overall_rms` is
`overall_rms` itself, with no epsilon guard (only the dB logarithms add
`1e-10`), and on the all-zero signal it is zero: the scan then evaluates
frames whose `distance_ratio` is NaN (0/0), every comparison fails, and
the boundaries default to the extremes. -/
theorem C9_counterexample :
    Trim.overallMeanSq zeros10 = ⟨0, 10⟩
      ∧ Qval (Trim.overallMeanSq zeros10) = 0
      ∧ Trim.scanFrames zeros10 5 (Trim.overallMeanSq zeros10) (Trim.rangeFwd 0 10 5) = none
      ∧ Trim.detect_silence zeros10 10 = some (⟨0, 10⟩, ⟨10, 10⟩, ⟨10, 10⟩) := by
  refine ⟨by decide, ?_, by decide, by decide⟩
  have h : Trim.overallMeanSq zeros10 = ⟨0, 10⟩ := by decide
  rw [h]
  show ((0 : ℤ) : ℚ) / ((10 : ℤ) : ℚ) = 0
  norm_num

/-- Claim C9 (amended): the dB logarithms are epsilon-guarded (their
argument `rms + 1e-10` is strictly positive for every nonnegative rms),
and the zero-MAD case of the detector involves no division at all; but
the `distance_ratio` division is unguarded: its divisor `overall_rms`
vanishes exactly when every sample is zero, in which case every
comparison against the NaN ratio is false and the locator returns the
default boundaries `(0, total_duration)`. -/
theorem C9_division_guard (audio : List Q) (sr : ℕ) :
    (∀ r : Q, Qwf r → 0 ≤ Qval r → 0 < Qval (Trim.log10GuardArg r))
  ∧ ((∀ x ∈ audio, Qwf x) → audio ≠ [] →
      (Qval (Trim.overallMeanSq audio) = 0 ↔ ∀ x ∈ audio, Qval x = 0))
  ∧ (Trim.coarseLen sr ≠ 0 → Trim.fineLen sr ≠ 0 →
      (∀ x ∈ audio, Qwf x ∧ Qval x = 0) →
      ∃ r : Q × Q × Q, Trim.detect_silence audio sr = some r
        ∧ Qval r.1 = 0 ∧ r.2.1 = r.2.2) := by
  refine ⟨?_, ?_, ?_⟩
  · intro r hwf hnn
    unfold Trim.log10GuardArg
    rw [Qval_add hwf.ne' (by norm_num)]
    have harg : Qval (⟨1, 10000000000⟩ : Q) = 1 / 10000000000 := by
      show ((1 : ℤ) : ℚ) / ((10000000000 : ℤ) : ℚ) = 1 / 10000000000
      norm_num
    rw [harg]
    linarith
  · intro hwf hne
    unfold Trim.overallMeanSq
    rw [meanSq_val hwf]
    have hlen : (audio.length : ℚ) ≠ 0 :=
      Nat.cast_ne_zero.mpr (List.length_pos.mpr hne).ne'
    rw [div_eq_zero_iff]
    have hmaps : audio.map (fun x => Qval x * Qval x)
        = (audio.map Qval).map (fun x => x * x) := by
      rw [List.map_map]
      exact List.map_congr_left (fun a _ => rfl)
    rw [hmaps]
    constructor
    · intro h
      rcases h with h | h
      · intro x hx
        exact (sum_sq_zero_iff (audio.map Qval)).mp h (Qval x) (List.mem_map_of_mem Qval hx)
      · exact absurd h hlen
    · intro h
      left
      refine (sum_sq_zero_iff (audio.map Qval)).mpr ?_
      intro y hy
      obtain ⟨x, hx, rfl⟩ := List.mem_map.mp hy
      exact h x hx
  · intro hcs hfs hq
    have hnum : ∀ x ∈ audio, x.num = 0 := by
      intro x hx
      have hwf := (hq x hx).1
      have hval := (hq x hx).2
      unfold Qval at hval
      rcases div_eq_zero_iff.mp hval with h | h
      · exact_mod_cast h
      · exact absurd (by exact_mod_cast h) hwf.ne'
    have hms : (Trim.meanSq audio).num = 0 := meanSq_num_zero hnum
    have h1 : Trim.startCoarseIdx audio sr = none := scanFrames_num_zero hms _
    have h2 : Trim.startFineIdx audio sr = none := scanFrames_num_zero hms _
    have h3 : Trim.endCoarseIdx audio sr = none := scanFrames_num_zero hms _
    have h4 : Trim.endFineIdx audio sr = none := scanFrames_num_zero hms _
    obtain ⟨r, hr, hs, he, hT⟩ := detect_silence_start audio sr hcs hfs
    refine ⟨r, hr, ?_, ?_⟩
    · rw [hs, h1, h2, Option.getD_none, Option.getD_none, Qdiv_natnat, Qval_mk_nat]
      norm_num
    · rw [he, hT, h4]
      show Qnat (Trim.endCoarseSample audio sr) / Qnat sr = Qnat audio.length / Qnat sr
      unfold Trim.endCoarseSample
      rw [h3]

/-- Witness for C9 (amended) on the all-zero 10-sample signal at 10 Hz. -/
theorem C9_division_guard_witness :
    0 < Qval (Trim.log10GuardArg 0)
  ∧ (Qval (Trim.overallMeanSq zeros10) = 0 ↔ ∀ x ∈ zeros10, Qval x = 0)
  ∧ (∃ r : Q × Q × Q, Trim.detect_silence zeros10 10 = some r
      ∧ Qval r.1 = 0 ∧ r.2.1 = r.2.2) :=
  ⟨(C9_division_guard zeros10 10).1 0 Qwf_zero (le_of_eq Qval_zero.symm),
   (C9_division_guard zeros10 10).2.1 (by decide) (by decide),
   (C9_division_guard zeros10 10).2.2 (by decide) (by decide)
     (by
       intro x hx
       rcases List.eq_of_mem_replicate hx with rfl
       exact ⟨Qwf_zero, Qval_zero⟩)⟩

/-- Claim C8: FALSE as stated.  A caller-supplied even `window_size` is
not always incremented: the range check `window_size < 3 or
window_size > 25` runs *before* the even adjustment, so the even value 26
is rejected with an error, contradicting "never rejected". -/
theorem C8_counterexample : validate_window 26 = none ∧ (26 : Int) % 2 = 0 :=
  ⟨by decide, by decide⟩

/-- Claim C8 (amended): an even window size inside the accepted range
3..25 is silently incremented by 1 and never rejected; a window size
outside that range — even values included — is rejected with an error
before the audio file is loaded, so no partial work is done on the
signal. -/
theorem C8_window_validation (ws : Int) :
    (3 ≤ ws → ws ≤ 25 → ws % 2 = 0 → validate_window ws = some (ws + 1))
  ∧ (3 ≤ ws → ws ≤ 25 → ws % 2 = 1 → validate_window ws = some ws)
  ∧ (ws < 3 ∨ 25 < ws → validate_window ws = none) := by
  refine ⟨?_, ?_, ?_⟩
  · intro h1 h2 h3
    unfold validate_window
    rw [if_neg (by omega), if_pos h3]
  · intro h1 h2 h3
    unfold validate_window
    rw [if_neg (by omega), if_neg (by omega)]
  · intro h
    unfold validate_window
    rw [if_pos h]

/-- Witness for C8 (amended): 4 is incremented to 5, 7 passes unchanged,
26 is rejected. -/
theorem C8_window_validation_witness :
    validate_window 4 = some (4 + 1)
  ∧ validate_window 7 = some 7
  ∧ validate_window 26 = none :=
  ⟨(C8_window_validation 4).1 (by norm_num) (by norm_num) (by decide),
   (C8_window_validation 7).2.1 (by norm_num) (by norm_num) (by decide),
   (C8_window_validation 26).2.2 (Or.inr (by norm_num))⟩

section RatioJustification

/-- Square-root form of the band `o/4 ≤ f ≤ 9o/4`: over the reals, for a
nonnegative `f` and positive `o`, the band on the mean squares is exactly
the source's criterion `|sqrt f - sqrt o| / sqrt o ≤ 1/2` on the RMS
values. -/
theorem sqrt_band_equiv (f o : ℝ) (hf : 0 ≤ f) (ho : 0 < o) :
    |Real.sqrt f - Real.sqrt o| / Real.sqrt o ≤ 1 / 2 ↔ o / 4 ≤ f ∧ f ≤ 9 * o / 4 := by
  have hso : 0 < Real.sqrt o := Real.sqrt_pos.mpr ho
  have ha : 0 ≤ Real.sqrt f := Real.sqrt_nonneg f
  have hfa : Real.sqrt f ^ 2 = f := Real.sq_sqrt hf
  have hob : Real.sqrt o ^ 2 = o := Real.sq_sqrt ho.le
  set a := Real.sqrt f
  set b := Real.sqrt o
  rw [div_le_iff₀ hso, abs_sub_le_iff, ← hfa, ← hob]
  constructor
  · rintro ⟨h1, h2⟩
    constructor
    · nlinarith [mul_nonneg (show (0:ℝ) ≤ a - b / 2 by linarith)
        (show (0:ℝ) ≤ a + b / 2 by linarith)]
    · nlinarith [mul_nonneg (show (0:ℝ) ≤ 3 * b / 2 - a by linarith)
        (show (0:ℝ) ≤ 3 * b / 2 + a by linarith)]
  · rintro ⟨h1, h2⟩
    constructor
    · nlinarith [show (0:ℝ) < a + 3 * b / 2 by linarith]
    · nlinarith [show (0:ℝ) < a + b / 2 by linarith]

/-- Faithfulness of `Trim.ratioOk`: on well-formed fractions whose values
are a nonnegative frame mean square and a positive overall mean square,
the boolean test agrees exactly with the source's floating criterion
`|frame_rms - overall_rms| / overall_rms ≤ 0.5` on the denoted real
values. -/
theorem ratioOk_iff_sqrt (msF msO : Q) (hF : Qwf msF) (hO : Qwf msO)
    (hFnn : 0 ≤ Qval msF) (hOpos : 0 < Qval msO) :
    Trim.ratioOk msF msO = true ↔
      |Real.sqrt (Qval msF) - Real.sqrt (Qval msO)| / Real.sqrt (Qval msO) ≤ 1 / 2 := by
  have h4 : Qwf (msO / (⟨4, 1⟩ : Q)) := Qwf_div hO (by norm_num)
  have h94wf : Qwf ((⟨9, 4⟩ : Q) * msO) := Qwf_mul (show (0:ℤ) < 4 by norm_num) hO
  have hv4 : Qval (⟨4, 1⟩ : Q) = 4 := by
    show ((4 : ℤ) : ℚ) / ((1 : ℤ) : ℚ) = 4
    norm_num
  have hv94 : Qval (⟨9, 4⟩ : Q) = 9 / 4 := by
    show ((9 : ℤ) : ℚ) / ((4 : ℤ) : ℚ) = 9 / 4
    norm_num
  have hval4 : Qval (msO / (⟨4, 1⟩ : Q)) = Qval msO / 4 := by
    rw [Qval_div, hv4]
  have hval94 : Qval ((⟨9, 4⟩ : Q) * msO) = 9 * Qval msO / 4 := by
    rw [Qval_mul, hv94]
    ring
  have hequiv := sqrt_band_equiv ((Qval msF : ℚ) : ℝ) ((Qval msO : ℚ) : ℝ)
    (by exact_mod_cast hFnn) (by exact_mod_cast hOpos)
  rw [hequiv]
  simp only [Trim.ratioOk, Bool.and_eq_true, decide_eq_true_eq]
  constructor
  · rintro ⟨⟨h0, hA⟩, hB⟩
    constructor
    · have hq := (Qle_iff h4 hF).mp hA
      rw [hval4] at hq
      exact_mod_cast hq
    · have hq := (Qle_iff hF h94wf).mp hB
      rw [hval94] at hq
      exact_mod_cast hq
  · rintro ⟨hA, hB⟩
    refine ⟨⟨?_, ?_⟩, ?_⟩
    · refine (Qlt_iff Qwf_zero hO).mpr ?_
      rw [Qval_zero]
      exact hOpos
    · refine (Qle_iff h4 hF).mpr ?_
      rw [hval4]
      exact_mod_cast hA
    · refine (Qle_iff hF h94wf).mpr ?_
      rw [hval94]
      exact_mod_cast hB

end RatioJustification
